import Mathlib

/-!
Verification of the skill-canonicalization and fit-scoring engine of the
RESUME-ANALYSER repository (`backend/utils/nlp_processing.py`).

The Python module is shallowly embedded as follows.

* Strings are Lean `String`s; Python's ASCII case mapping (`str.lower`,
  `str.title`) is modelled with core `Char.toLower` / `Char.toUpper`
  (ASCII-only, exactly matching CPython for the ASCII data in this module).
* Python `dict` / `set` are modelled as association lists and duplicate-free
  lists; the dictionary built by a comprehension is looked up last-binding-wins
  (`lastLookup`), matching Python's overwrite semantics.
* The regular expressions of the module (all of the form
  `\b<literal>\b`, literal alternations, or small anchored character-class
  patterns) are translated into executable functions over `List Char`.
  `re.findall` over an alternation is modelled by testing each alternative
  independently; every alternative is also a dictionary alias or an
  independent literal, so the accumulated *set* of skills is unchanged.
* The spaCy pipeline (`nlp`) is an external component; `extract_skills` is
  parametrised by a function `ner : String → List Ent` giving the entities of
  the (lowercased) document, and module initialisation is modelled by
  `moduleInit` (the source calls `exit()` when the model is missing).
-/

/-- ASCII word character, the `\w` class of the module's (ASCII) regexes:
letters, digits and underscore. -/
def isWordChar (c : Char) : Bool :=
  (65 ≤ c.toNat && c.toNat ≤ 90) || (97 ≤ c.toNat && c.toNat ≤ 122) ||
    (48 ≤ c.toNat && c.toNat ≤ 57) || c.toNat == 95

/-- ASCII letter (the `[a-zA-Z]` class). -/
def isAsciiLetter (c : Char) : Bool :=
  (65 ≤ c.toNat && c.toNat ≤ 90) || (97 ≤ c.toNat && c.toNat ≤ 122)

/-- ASCII digit (the `\d` class). -/
def isDigitChar (c : Char) : Bool :=
  48 ≤ c.toNat && c.toNat ≤ 57

/-- Python `str` whitespace (`\s`, `str.strip`, `str.split`), ASCII part. -/
def isSpaceChar (c : Char) : Bool :=
  c.toNat == 32 || c.toNat == 9 || c.toNat == 10 || c.toNat == 13 ||
    c.toNat == 11 || c.toNat == 12

/-- `str.lower` on a character list (ASCII, via core `Char.toLower`). -/
def lowerL (l : List Char) : List Char :=
  l.map Char.toLower

/-- `str.lower` on a `String`. -/
def lowerStr (s : String) : String :=
  ⟨lowerL s.data⟩

/-- One step of `str.title`: an ASCII letter is uppercased when the previous
character was not a letter and lowercased otherwise; other characters pass
through.  `prevAlpha` records whether the previous character was a letter. -/
def titleL (prevAlpha : Bool) : List Char → List Char
  | [] => []
  | c :: r =>
    if isAsciiLetter c then
      (if prevAlpha then Char.toLower c else Char.toUpper c) :: titleL true r
    else
      c :: titleL false r

/-- Python `str.title` (ASCII model), used by `_normalize_skill_casing`'s
fallback `canonical.title()`. -/
def titleStr (s : String) : String :=
  ⟨titleL false s.data⟩

/-- `str.strip()`: drop leading and trailing whitespace. -/
def stripL (l : List Char) : List Char :=
  ((l.dropWhile isSpaceChar).reverse.dropWhile isSpaceChar).reverse

/-- `str.strip()` on a `String`. -/
def stripStr (s : String) : String :=
  ⟨stripL s.data⟩

/-- `str.split()` (no argument): split on whitespace runs, dropping empty
pieces.  Only the number of pieces is used by the source (word-count filter). -/
def splitWs : List Char → List Char → List (List Char)
  | [], cur => if cur = [] then [] else [cur.reverse]
  | c :: rest, cur =>
    if isSpaceChar c then
      if cur = [] then splitWs rest [] else cur.reverse :: splitWs rest []
    else
      splitWs rest (c :: cur)

/-- Start of a literal-string check: does `lit` occur at the head of `text`? -/
def litHere : List Char → List Char → Bool
  | [], _ => true
  | _ :: _, [] => false
  | a :: as, b :: bs => a == b && litHere as bs

/-- The `\b` word-boundary of Python's `re`: it holds between two (optional)
characters when exactly one of them is a word character (a missing character,
i.e. the edge of the string, counts as a non-word character). -/
def boundary (a b : Option Char) : Bool :=
  (a.map isWordChar).getD false != (b.map isWordChar).getD false

/-- Does the pattern `\b<lit>\b` (with `lit` a `re.escape`d literal) match
`text` at the current position, given the previous character `prev`? -/
def litMatchAt (lit text : List Char) (prev : Option Char) : Bool :=
  litHere lit text && boundary prev lit.head? &&
    boundary lit.getLast? (text.drop lit.length).head?

/-- `re.search(r"\b" + re.escape(lit) + r"\b", text) is not None`: some
position of `text` carries a word-bounded occurrence of the literal `lit`. -/
def wordBounded (lit : List Char) : Option Char → List Char → Bool
  | prev, [] => litMatchAt lit [] prev
  | prev, c :: rest => litMatchAt lit (c :: rest) prev || wordBounded lit (some c) rest

/-- Word-bounded (in the `\b` sense) occurrence of `lit` anywhere in `text`. -/
def wordBoundedContains (lit text : List Char) : Bool :=
  wordBounded lit none text

/-- `CANONICAL_SKILLS_MAP` of the source, in source order: canonical skill
name paired with its lowercase aliases (a Python `set` literal, modelled as a
list in the written order). -/
def CANONICAL_SKILLS_MAP : List (String × List String) := [
  ("Python", ["python"]), ("Java", ["java"]), ("C++", ["c++"]), ("C#", ["c#"]),
  ("JavaScript", ["javascript", "js"]), ("TypeScript", ["typescript"]),
  ("React", ["react", "reactjs"]),
  ("Node.js", ["node.js", "nodejs"]), ("Angular", ["angular", "angularjs"]),
  ("Vue.js", ["vue.js", "vuejs"]),
  ("SQL", ["sql", "mysql", "postgresql", "sqlite"]),
  ("NoSQL", ["nosql", "mongodb", "cassandra", "redis", "couchbase"]),
  ("ML", ["machine learning", "ml", "machinelearning"]),
  ("Deep Learning", ["deep learning", "dl", "deeplearning"]),
  ("NLP", ["nlp", "natural language processing"]),
  ("Data Analysis", ["data analysis", "data analytics"]),
  ("Data Science", ["data science"]), ("Computer Vision", ["computer vision"]),
  ("AI", ["artificial intelligence", "ai"]),
  ("HTML", ["html"]), ("CSS", ["css"]), ("Redux", ["redux"]),
  ("Express.js", ["express.js", "expressjs"]),
  ("Django", ["django"]), ("Flask", ["flask"]), ("FastAPI", ["fastapi"]),
  ("Spring Boot", ["spring boot"]),
  ("AWS", ["aws", "amazon web services"]), ("Azure", ["azure", "microsoft azure"]),
  ("GCP", ["gcp", "google cloud platform"]),
  ("Docker", ["docker", "containerization"]),
  ("Kubernetes", ["kubernetes"]), ("Git", ["git"]), ("Jira", ["jira"]),
  ("Jenkins", ["jenkins"]),
  ("Travis CI", ["travis ci"]), ("CircleCI", ["circleci"]),
  ("TensorFlow", ["tensorflow"]), ("PyTorch", ["pytorch"]),
  ("Scikit-learn", ["scikit-learn"]),
  ("Pandas", ["pandas"]), ("NumPy", ["numpy"]), ("Matplotlib", ["matplotlib"]),
  ("Seaborn", ["seaborn"]),
  ("Agile", ["agile"]), ("Scrum", ["scrum"]), ("DevOps", ["devops"]),
  ("CI/CD", ["ci/cd"]),
  ("REST API", ["rest api", "restful", "restful api", "restful services"]),
  ("Microservices", ["microservices", "microservice"]),
  ("Unit Testing", ["unit testing"]), ("Integration Testing", ["integration testing"]),
  ("Linux", ["linux"]), ("Unix", ["unix"]), ("Bash", ["bash"]),
  ("Shell Scripting", ["shell scripting"]),
  ("API Development", ["api development"]),
  ("Web Development", ["web development", "full stack web development"]),
  ("Mobile Development", ["mobile development"]),
  ("Cloud Computing", ["cloud computing", "cloud platforms", "cloud"]),
  ("Big Data", ["big data"]), ("Spark", ["spark", "apache spark"]),
  ("Hadoop", ["hadoop"]), ("Kafka", ["kafka"]),
  ("ETL", ["etl", "extract transform load", "apache airflow"]),
  ("Data Warehousing", ["data warehousing"]),
  ("Object-Oriented Programming", ["object-oriented programming", "oop"]),
  ("Functional Programming", ["functional programming"]),
  ("Algorithms", ["algorithms", "data structures and algorithms"]),
  ("Data Structures", ["data structures"]),
  ("Cybersecurity", ["cybersecurity"]), ("Network Security", ["network security"]),
  ("Cloud Security", ["cloud security"]),
  ("Blockchain", ["blockchain"]), ("Solidity", ["solidity"]),
  ("UI/UX Design", ["ui/ux design"]), ("Figma", ["figma"]), ("Sketch", ["sketch"]),
  ("Adobe XD", ["adobe xd"]),
  ("Photoshop", ["photoshop"]), ("Illustrator", ["illustrator"]),
  ("Project Management", ["project management"]),
  ("Risk Management", ["risk management"]), ("Business Analysis", ["business analysis"]),
  ("Requirements Gathering", ["requirements gathering"]),
  ("Technical Documentation", ["technical documentation"]),
  ("Communication", ["communication"]), ("Teamwork", ["teamwork"]),
  ("Problem Solving", ["problem solving"]), ("Leadership", ["leadership"]),
  ("Microsoft Office", ["microsoft office", "ms office"]), ("Excel", ["excel"]),
  ("PowerPoint", ["powerpoint"]), ("Word", ["word"]),
  ("Google Workspace", ["google workspace", "gsuite"]),
  ("R", ["r"]), ("Go", ["go"]), ("Rust", ["rust"]), ("Swift", ["swift"]),
  ("Kotlin", ["kotlin"]), ("PHP", ["php"]), ("Laravel", ["laravel"]),
  ("Ruby", ["ruby"]), ("Ruby on Rails", ["ruby on rails"]),
  ("XGBoost", ["xgboost"]), ("Streamlit", ["streamlit"]),
  ("Statistical Modeling", ["statistical modeling", "statistics", "probability"]),
  ("Container Orchestration", ["container orchestration"]),
  ("MLOps", ["mlops", "machine learning operations", "kubeflow"])
]

/-- `ALIAS_TO_CANONICAL = {alias: canonical for canonical, aliases in
CANONICAL_SKILLS_MAP.items() for alias in aliases}` — the inverted index as
the list of bindings produced by the comprehension, in production order. -/
def ALIAS_TO_CANONICAL : List (String × String) :=
  CANONICAL_SKILLS_MAP.foldl (fun acc p => acc ++ p.2.map (fun a => (a, p.1))) []

/-- Lookup in a Python `dict` built from a list of bindings: the *last*
binding of a key wins (dict insertion overwrites). -/
def lastLookup (l : List (String × String)) (k : String) : Option String :=
  List.lookup k l.reverse

/-- `_get_canonical_skill`: `ALIAS_TO_CANONICAL.get(skill_text.lower(), skill_text)`. -/
def _get_canonical_skill (skill_text : String) : String :=
  (lastLookup ALIAS_TO_CANONICAL (lowerStr skill_text)).getD skill_text

/-- `_normalize_skill_casing`: canonicalize, then return the first key of
`CANONICAL_SKILLS_MAP` equal to the canonical form (the source's `for` loop),
falling back to `canonical.title()`. -/
def _normalize_skill_casing (skill_text : String) : String :=
  let canonical := _get_canonical_skill skill_text
  match CANONICAL_SKILLS_MAP.find? (fun p => p.1 == canonical) with
  | some p => p.1
  | none => titleStr canonical

/-- The lowercased canonical form of a token:
`_get_canonical_skill(s).lower()`, the form on which the scoring sets are
built. -/
def canonLower (s : String) : String :=
  lowerStr (_get_canonical_skill s)

/-- `set.add`: insert a string into a set modelled as a duplicate-free list
(appending keeps a deterministic enumeration order; Python's set iteration
order is arbitrary, and the pipeline sorts before returning). -/
def insertSet (x : String) (l : List String) : List String :=
  if x ∈ l then l else l ++ [x]

/-- A spaCy entity as consumed by the source: its text (`ent.text`) and its
label (`ent.label_`). -/
structure Ent where
  text : String
  label : String

/-- `non_skill_entities_lower` of `extract_skills`, in source order. -/
def non_skill_entities_lower : List String := [
  "company", "project", "team", "solution", "system", "role", "position", "highlights",
  "experience", "responsibilities", "qualifications", "education", "benefits", "overview", "job overview",
  "intern", "engineer", "analyst", "developer", "manager", "specialist", "scientist", "firm",
  "client", "customer", "stakeholder", "user", "model", "product", "services", "building", "implementing",
  "research", "development", "design", "testing", "management", "quality", "quality assurance",
  "business", "strategy", "metrics", "performance", "optimization", "growth", "impact",
  "problem", "flow", "workflow", "process", "report", "communication", "leadership", "teamwork", "problem solving",
  "agile", "scrum", "kanban", "methodology", "methodologies", "principles", "concepts", "frameworks",
  "platform", "library", "tool", "software", "hardware", "service", "api", "database",
  "server", "architecture", "security", "data", "science", "learning", "network", "cloud",
  "computing", "analytics", "prediction", "forecasting", "technical", "documentation",
  "requirements", "gathering", "mobile", "web", "full stack", "distributed", "frontend", "backend",
  "quantitative", "foundation", "foundations", "exposure", "theory", "theoretical", "related",
  "rmse", "linear", "alpha", "delta", "gpa", "india", "jaipur", "delhi", "mumbai", "location",
  "june", "march", "may", "jan", "jun", "february", "april", "july", "august", "september", "october", "november", "december",
  "2020", "2021", "2022", "2023", "2024", "2025", "2026", "2027", "2028", "2029", "2030",
  "microsoft", "google", "amazon", "apple", "ibm", "oracle", "accenture", "tata",
  "gmail", "linkedin", "github", "powerpoint", "excel", "word", "outlook", "vs code",
  "pythonsoftwarefoundation", "explosion",
  "records", "rows", "features", "datasets", "day", "days", "months", "years", "percent", "rate",
  "cut", "achieved", "engineered", "spearheaded", "optimized", "collaborated", "championed", "managed", "solved", "built", "implemented", "utilized", "contributing", "designing", "maintaining", "integrate", "conduct", "participate", "translate", "ensure", "monitor",
  "pipeline", "pipelines", "models", "systems", "architecture", "products", "environment", "environments", "lifecycle",
  "workflow orchestration tools", "data visualization tools",
  "job", "title", "company", "about", "overview", "responsibilities", "required", "preferred", "qualifications", "benefits",
  "experience highlights", "selected projects", "technical skills", "education", "certifications", "profile",
  "api development", "web development", "mobile development",
  "high school", "diploma", "honours", "hons", "bachelor", "master", "phd", "university", "college", "school", "institute",
  "full stack"
]

/-- Pattern `^\d+(\.\d+)?%?$` (a percentage or a bare number). -/
def pat_percent (l : List Char) : Bool :=
  let sp := l.span isDigitChar
  sp.1 ≠ [] &&
    (sp.2 = [] || sp.2 = ['%'] ||
      (match sp.2 with
       | '.' :: r2 =>
         let sp2 := r2.span isDigitChar
         sp2.1 ≠ [] && (sp2.2 = [] || sp2.2 = ['%'])
       | _ => false))

/-- Pattern `^\d+$` (a pure number). -/
def pat_number (l : List Char) : Bool :=
  l ≠ [] && l.all isDigitChar

/-- Pattern `^\w\s*\d+(\.\d+)?$` (single letter + number, e.g. "c 2025"). -/
def pat_letter_number (l : List Char) : Bool :=
  match l with
  | [] => false
  | c :: rest =>
    isWordChar c &&
      (let r1 := rest.dropWhile isSpaceChar
       let sp := r1.span isDigitChar
       sp.1 ≠ [] &&
         (sp.2 = [] ||
           (match sp.2 with
            | '.' :: r3 =>
              let sp2 := r3.span isDigitChar
              sp2.1 ≠ [] && sp2.2 = []
            | _ => false)))

/-- Pattern `^\d{4}$` (years). -/
def pat_year (l : List Char) : Bool :=
  l.length = 4 && l.all isDigitChar

/-- One position of pattern `rmse(~)?\s*\d+(\.\d+)?` (the trailing group is
optional, so a match only needs `rmse`, an optional `~`, whitespace and at
least one digit). -/
def pat_rmse_at (l : List Char) : Bool :=
  litHere "rmse".data l &&
    (let r := l.drop 4
     let r := match r with | '~' :: t => t | _ => r
     match r.dropWhile isSpaceChar with
     | c :: _ => isDigitChar c
     | [] => false)

/-- Unanchored `re.search` of a position predicate: try every suffix. -/
def searchAny (f : List Char → Bool) : List Char → Bool
  | [] => f []
  | c :: rest => f (c :: rest) || searchAny f rest

/-- Pattern `\b(hours|minutes|seconds|days|weeks|months|years|records|features|rows)\b`
(units; `re.IGNORECASE` is moot since candidates are already lowercased). -/
def pat_units (l : List Char) : Bool :=
  ["hours", "minutes", "seconds", "days", "weeks", "months", "years", "records",
    "features", "rows"].any (fun w => wordBoundedContains w.data l)

/-- Pattern `^\s*[\-\*]\s*` (bullet points): leading whitespace then `-`/`*`. -/
def pat_bullet (l : List Char) : Bool :=
  match l.dropWhile isSpaceChar with
  | c :: _ => c == '-' || c == '*'
  | [] => false

/-- Pattern `^(?=.*\d)(?=.*[a-zA-Z]).+$` (alphanumeric codes/ids): the first
line is nonempty, nothing follows it but an optional final newline, and it
contains a digit and a letter (`.` does not cross a newline and `$` only
matches at the end or before a final newline). -/
def pat_alnum_code (l : List Char) : Bool :=
  let fl := l.takeWhile (fun c => c != '\n')
  let rest := l.drop fl.length
  fl ≠ [] && (rest = [] || rest = ['\n']) && fl.any isDigitChar && fl.any isAsciiLetter

/-- `any(pattern.search(text) for pattern in compiled_exclusion_patterns)`. -/
def exclusionMatch (l : List Char) : Bool :=
  searchAny pat_percent l || searchAny pat_number l || searchAny pat_letter_number l ||
    searchAny pat_year l || searchAny pat_rmse_at l || pat_units l ||
    searchAny pat_bullet l || searchAny pat_alnum_code l

/-- The alternation literals of `tech_patterns`, pattern by pattern, in source
order.  Each `re.findall` over `\b(l1|l2|...)\b` is modelled by testing each
alternative as a word-bounded literal. -/
def tech_patterns : List (List String) := [
  ["c++", "c#", "node.js", "vue.js", "react.js", ".net", "sql", "nosql", "restful", "graphql"],
  ["api", "rest", "graphql", "oauth", "jwt"],
  ["cloud", "azure", "aws", "gcp", "vmware"],
  ["ml", "ai", "dl", "nlp", "mlops"],
  ["ci/cd", "devops", "etl"],
  ["xgboost", "streamlit", "jupyter"],
  ["data analysis", "data science", "machine learning", "deep learning", "computer vision"],
  ["algorithms", "data structures", "object-oriented programming", "functional programming"],
  ["pytorch", "tensorflow", "scikit-learn", "pandas", "numpy", "matplotlib", "seaborn"],
  ["big data", "time series analysis", "container orchestration", "data warehousing"],
  ["project management", "risk management", "statistical modeling", "web development",
    "api development", "mobile development", "business analysis", "requirements gathering",
    "technical documentation"],
  ["linux", "unix", "bash", "shell scripting"],
  ["jira", "jenkins", "travis ci", "circleci", "git"],
  ["express.js", "django", "flask", "spring boot"],
  ["html", "css", "redux"]
]

/-- Phase 1 of `extract_skills`: for every canonical skill and every alias,
`re.search(r"\b" + re.escape(alias) + r"\b", text_lower)`; on a hit add the
lowercased canonical form to the found set. -/
def phase1 (textLower : List Char) (found : List String) : List String :=
  CANONICAL_SKILLS_MAP.foldl
    (fun acc p =>
      p.2.foldl
        (fun acc2 al =>
          if wordBoundedContains al.data textLower then insertSet (lowerStr p.1) acc2
          else acc2)
        acc)
    found

/-- One iteration of Phase 2 of `extract_skills`: filter one NER entity
(word-count bound, stoplist, exclusion patterns) and canonicalize it (known
alias → canonical; skill-like label → raw lowercased span; `PERSON`-labelled
`"r"` → `"r"`). -/
def phase2Step (acc : List String) (e : Ent) : List String :=
  let entity_text := stripStr e.text
  let norm := lowerStr entity_text
  if ¬ (1 ≤ (splitWs entity_text.data []).length ∧ (splitWs entity_text.data []).length ≤ 5) then
    acc
  else if norm ∈ non_skill_entities_lower ∨ exclusionMatch norm.data then
    acc
  else
    match lastLookup ALIAS_TO_CANONICAL norm with
    | some canonical_from_ner => insertSet (lowerStr canonical_from_ner) acc
    | none =>
      if e.label ∈ ["ORG", "PRODUCT", "LANGUAGE", "WORK_OF_ART", "EVENT"] then
        if norm ∈ ["microsoft", "google", "amazon", "apple", "ibm", "oracle", "apache"] then
          acc
        else
          insertSet (lowerStr entity_text) acc
      else if e.label == "PERSON" then
        if norm == "r" then insertSet "r" acc else acc
      else
        acc

/-- Phase 2 of `extract_skills`: filter and canonicalize the NER entities. -/
def phase2 (ents : List Ent) (found : List String) : List String :=
  ents.foldl phase2Step found

/-- The invariant of the found set: every accumulated string is either the
lowercase form of a canonical skill or a lowercase non-alias (the raw NER
spans accepted by label are only added when their lookup failed). -/
def SkillInv (x : String) : Prop :=
  (∃ p ∈ CANONICAL_SKILLS_MAP, x = lowerStr p.1) ∨
  (lowerStr x = x ∧ lastLookup ALIAS_TO_CANONICAL x = none)

/-- An edge of a whole-word occurrence in the spec's sense: the neighbouring
character is absent (string edge) or not a word character. -/
def wholeWordEdge (c : Option Char) : Bool :=
  !(c.map isWordChar).getD false

/-- Modelled from the spec's words: the literal occurs at this position "as a
whole word" — it is present and both neighbouring characters (when present)
are not word characters. -/
def wholeWordAt (lit text : List Char) (prev : Option Char) : Bool :=
  litHere lit text && wholeWordEdge prev && wholeWordEdge (text.drop lit.length).head?

/-- Search for a whole-word (spec sense) occurrence, tracking the previous
character. -/
def wholeWordSearch (lit : List Char) : Option Char → List Char → Bool
  | prev, [] => wholeWordAt lit [] prev
  | prev, c :: rest => wholeWordAt lit (c :: rest) prev || wholeWordSearch lit (some c) rest

/-- Modelled from the spec's words: `text` contains `lit` as a whole word
(some occurrence of `lit` in `text` whose neighbours are string edges or
non-word characters). -/
def containsAsWholeWord (lit text : String) : Bool :=
  wholeWordSearch lit.data none text.data

/-- Phase 3 of `extract_skills`: `re.findall` of every tech pattern; every
matched alternative is canonicalized and its lowercase form added. -/
def phase3 (textLower : List Char) (found : List String) : List String :=
  tech_patterns.foldl
    (fun acc pat =>
      pat.foldl
        (fun acc2 lit =>
          if wordBoundedContains lit.data textLower then
            insertSet (lowerStr (_get_canonical_skill lit)) acc2
          else acc2)
        acc)
    found

/-- The found set (`found_skills_canonical_lower`) accumulated by the three
phases of `extract_skills` over the lowercased text; `ner` gives the entities
of `nlp(text_lower)`. -/
def foundSkills (ner : String → List Ent) (text : String) : List String :=
  let text_lower := lowerStr text
  phase3 text_lower.data (phase2 (ner text_lower) (phase1 text_lower.data []))

/-- Lexicographic (code-point) comparison of character lists: exactly the
string order used by Python's `sorted` / `list.sort`. -/
def leL : List Char → List Char → Bool
  | [], _ => true
  | _ :: _, [] => false
  | a :: as, b :: bs => if a < b then true else if b < a then false else leL as bs

/-- Python's string order, as a relation on `String`. -/
def strLe (s t : String) : Prop :=
  leL s.data t.data = true

instance : DecidableRel strLe :=
  fun s t => instDecidableEqBool (leL s.data t.data) true

/-- Ascending sort of strings (Python `sorted` / `list.sort`: lexicographic on
code points). -/
def sortStr (l : List String) : List String :=
  List.insertionSort strLe l

/-- `extract_skills`: the final
`sorted(list(_normalize_skill_casing(s) for s in found_skills_canonical_lower))`. -/
def extract_skills (ner : String → List Ent) (text : String) : List String :=
  sortStr ((foundSkills ner text).map _normalize_skill_casing)

/-- Python's `round` to an integer: round-half-to-even. -/
def roundHalfEven (q : ℚ) : ℤ :=
  let f := ⌊q⌋
  let r := q - f
  if r < 1 / 2 then f
  else if 1 / 2 < r then f + 1
  else if f % 2 = 0 then f else f + 1

/-- `round(x, 2)` over the rationals. -/
def pyRound2 (q : ℚ) : ℚ :=
  (roundHalfEven (q * 100) : ℚ) / 100

/-- The result dictionary of `calculate_job_fit_score`. -/
structure FitScoreResult where
  fit_score : ℚ
  matched_skills : List String
  missing_skills : List String
  extra_skills : List String
deriving DecidableEq, Repr

/-- `set(_get_canonical_skill(skill).lower() for skill in skills)`: the set of
lowercased canonical forms of a skill list. -/
def canonLowerSet (skills : List String) : List String :=
  skills.foldl (fun acc s => insertSet (lowerStr (_get_canonical_skill s)) acc) []

/-- One iteration of a presentation loop of `calculate_job_fit_score`:
canonicalize the entry, compute its display casing, and append it when its
lowercased canonical form satisfies `keep` and the display form was not
already appended (the `seen` set is exactly the accumulated list). -/
def displayStep (keep : String → Prop) [DecidablePred keep]
    (acc : List String) (s : String) : List String :=
  let canonical_s := _get_canonical_skill s
  let disp := _normalize_skill_casing canonical_s
  if keep (lowerStr canonical_s) ∧ disp ∉ acc then acc ++ [disp] else acc

/-- One presentation list of `calculate_job_fit_score`: iterate `src` with
`displayStep`, then sort. -/
def buildDisplayList (src : List String) (keep : String → Prop) [DecidablePred keep] :
    List String :=
  sortStr (src.foldl (displayStep keep) [])

/-- `matched_lower_skills = resume_skills_lower.intersection(jd_skills_lower)`
(the elements of the resume set that are also in the job-description set). -/
def matched_lower_skills (resume_skills jd_skills : List String) : List String :=
  (canonLowerSet resume_skills).filter (fun s => s ∈ canonLowerSet jd_skills)

/-- `calculate_job_fit_score` (the debug `print`s are I/O only; the local
sets of the source are the top-level `canonLowerSet` / `matched_lower_skills`
and the three `seen`-deduplicated presentation loops are `buildDisplayList`). -/
def calculate_job_fit_score (resume_skills jd_skills : List String) : FitScoreResult :=
  { fit_score :=
      pyRound2
        (if 0 < (canonLowerSet jd_skills).length then
          ((matched_lower_skills resume_skills jd_skills).length : ℚ) /
              ((canonLowerSet jd_skills).length : ℚ) * 100
        else 0)
    matched_skills :=
      buildDisplayList jd_skills (fun c => c ∈ matched_lower_skills resume_skills jd_skills)
    missing_skills := buildDisplayList jd_skills (fun c => c ∉ canonLowerSet resume_skills)
    extra_skills := buildDisplayList resume_skills (fun c => c ∉ canonLowerSet jd_skills) }

/-- Outcome of importing the module: either running with a loaded spaCy
pipeline, or the process exited. -/
inductive InitOutcome where
  | running (model : String → List Ent)
  | exited

/-- Result of `spacy.load("en_core_web_sm")` at module import: the loaded
pipeline, or an `OSError` because the model is not installed. -/
inductive NerLoadResult where
  | loaded (model : String → List Ent)
  | notFound

/-- Module initialisation of `nlp_processing.py`:
`try: nlp = spacy.load(...) except OSError: print(...); exit()` — on load
failure the module prints an instruction and terminates the process. -/
def moduleInit : NerLoadResult → InitOutcome
  | .loaded m => .running m
  | .notFound => .exited

/-- The rule-based part of the pipeline (phases 1 and 3 only): what
`extract_skills` computes when the NER contributes no candidates. -/
def rule_based_skills (text : String) : List String :=
  let text_lower := lowerStr text
  sortStr ((phase3 text_lower.data (phase1 text_lower.data [])).map _normalize_skill_casing)

/-! ### Order facts for the sorting relation -/

theorem leL_cons_iff {a b : Char} {as bs : List Char} :
    leL (a :: as) (b :: bs) = true ↔ a < b ∨ (a = b ∧ leL as bs = true) := by
  by_cases hab : a < b
  · simp [leL, hab]
  · by_cases hba : b < a
    · have hne : a ≠ b := ne_of_gt hba
      simp [leL, hab, hba, hne]
    · have heq : a = b := le_antisymm (not_lt.mp hba) (not_lt.mp hab)
      simp [leL, hab, hba, heq]

theorem leL_total : ∀ a b : List Char, leL a b = true ∨ leL b a = true
  | [], _ => Or.inl rfl
  | _ :: _, [] => Or.inr rfl
  | a :: as, b :: bs => by
    rcases lt_trichotomy a b with h | h | h
    · exact Or.inl (leL_cons_iff.mpr (Or.inl h))
    · rcases leL_total as bs with ih | ih
      · exact Or.inl (leL_cons_iff.mpr (Or.inr ⟨h, ih⟩))
      · exact Or.inr (leL_cons_iff.mpr (Or.inr ⟨h.symm, ih⟩))
    · exact Or.inr (leL_cons_iff.mpr (Or.inl h))

theorem leL_trans : ∀ a b c : List Char, leL a b = true → leL b c = true → leL a c = true
  | [], _, _, _, _ => rfl
  | _ :: _, [], _, h, _ => by simp [leL] at h
  | _ :: _, _ :: _, [], _, h => by simp [leL] at h
  | a :: as, b :: bs, c :: cs, h1, h2 => by
    rcases leL_cons_iff.mp h1 with hab | ⟨hab, h1t⟩ <;>
      rcases leL_cons_iff.mp h2 with hbc | ⟨hbc, h2t⟩
    · exact leL_cons_iff.mpr (Or.inl (hab.trans hbc))
    · exact leL_cons_iff.mpr (Or.inl (hbc ▸ hab))
    · exact leL_cons_iff.mpr (Or.inl (hab ▸ hbc))
    · exact leL_cons_iff.mpr (Or.inr ⟨hab.trans hbc, leL_trans as bs cs h1t h2t⟩)

theorem leL_antisymm : ∀ a b : List Char, leL a b = true → leL b a = true → a = b
  | [], [], _, _ => rfl
  | [], _ :: _, _, h => by simp [leL] at h
  | _ :: _, [], h, _ => by simp [leL] at h
  | a :: as, b :: bs, h1, h2 => by
    rcases leL_cons_iff.mp h1 with hab | ⟨hab, h1t⟩ <;>
      rcases leL_cons_iff.mp h2 with hba | ⟨hba, h2t⟩
    · exact absurd hba hab.asymm
    · exact absurd (hba ▸ hab : b < b) (lt_irrefl b)
    · exact absurd (hab ▸ hba : a < a) (lt_irrefl a)
    · rw [hab, leL_antisymm as bs h1t h2t]

instance : IsTotal String strLe :=
  ⟨fun s t => leL_total s.data t.data⟩

instance : IsTrans String strLe :=
  ⟨fun s t u => leL_trans s.data t.data u.data⟩

instance : IsAntisymm String strLe :=
  ⟨fun s t h1 h2 => by
    cases s; cases t
    exact congrArg String.mk (leL_antisymm _ _ h1 h2)⟩

theorem sortStr_sorted (l : List String) : List.Sorted strLe (sortStr l) :=
  List.sorted_insertionSort strLe l

theorem sortStr_perm (l : List String) : List.Perm (sortStr l) l :=
  List.perm_insertionSort strLe l

theorem sortStr_eq_of_perm {l₁ l₂ : List String} (h : List.Perm l₁ l₂) :
    sortStr l₁ = sortStr l₂ :=
  List.eq_of_perm_of_sorted ((sortStr_perm l₁).trans (h.trans (sortStr_perm l₂).symm))
    (sortStr_sorted l₁) (sortStr_sorted l₂)

/-- Two `FitScoreResult`s with equal fields are equal. -/
theorem fitScoreResult_eq {r s : FitScoreResult}
    (h1 : r.fit_score = s.fit_score) (h2 : r.matched_skills = s.matched_skills)
    (h3 : r.missing_skills = s.missing_skills) (h4 : r.extra_skills = s.extra_skills) :
    r = s := by
  cases r; cases s; simp_all

/-! ### C1: the documented scoring scenario -/

set_option maxRecDepth 100000 in
/-- C1: `calculate_job_fit_score` on source skills `["python", "AWS", "Django"]`
and target skills `["Python", "SQL", "AWS"]` returns
`matched_skills = ["AWS", "Python"]`, `missing_skills = ["SQL"]`,
`extra_skills = ["Django"]` and `fit_score = 66.67`. -/
theorem c1_scenario_job_fit :
    calculate_job_fit_score ["python", "AWS", "Django"] ["Python", "SQL", "AWS"] =
      { fit_score := 66.67, matched_skills := ["AWS", "Python"],
        missing_skills := ["SQL"], extra_skills := ["Django"] } := by
  refine fitScoreResult_eq ?_ (by decide) (by decide) (by decide)
  show pyRound2
      (if 0 < (canonLowerSet ["Python", "SQL", "AWS"]).length then
        ((matched_lower_skills ["python", "AWS", "Django"] ["Python", "SQL", "AWS"]).length : ℚ) /
            ((canonLowerSet ["Python", "SQL", "AWS"]).length : ℚ) * 100
      else 0) = 66.67
  have ht : (canonLowerSet ["Python", "SQL", "AWS"]).length = 3 := by decide
  have hm : (matched_lower_skills ["python", "AWS", "Django"] ["Python", "SQL", "AWS"]).length = 2 := by
    decide
  rw [ht, hm]
  unfold pyRound2 roundHalfEven
  norm_num

/-! ### C5: behaviour when the NER backend is unavailable -/

/-- C5 counterexample: contrary to the claim that a missing NER backend does
not abort the process, module initialisation on a load failure is the `exit()`
outcome (`except OSError: print(...); exit()` in the source). -/
theorem c5_counterexample_exit_on_load_failure :
    moduleInit NerLoadResult.notFound = InitOutcome.exited := rfl

/-- C5 (amended): when the spaCy model fails to load, the module aborts the
process at import time (so `extract_skills` never runs with an absent
backend); when the backend is loaded it is used as-is, and whenever the NER
contributes no entities, `extract_skills` returns exactly the rule-based
result. -/
theorem c5_amended_exit_and_rule_based :
    moduleInit NerLoadResult.notFound = InitOutcome.exited ∧
    (∀ m, moduleInit (NerLoadResult.loaded m) = InitOutcome.running m) ∧
    (∀ text, extract_skills (fun _ => []) text = rule_based_skills text) :=
  ⟨rfl, fun _ => rfl, fun _ => rfl⟩

/-! ### C8: canonicalization is idempotent and total -/

set_option maxRecDepth 100000 in
/-- C8: canonicalizing any canonical skill name (a key of
`CANONICAL_SKILLS_MAP`) returns it unchanged, and canonicalizing any token
whose lowercase form is not a known alias returns the token unchanged. -/
theorem c8_canonicalize_idempotent_total :
    (∀ p ∈ CANONICAL_SKILLS_MAP, _get_canonical_skill p.1 = p.1) ∧
    (∀ t : String, lastLookup ALIAS_TO_CANONICAL (lowerStr t) = none →
      _get_canonical_skill t = t) := by
  refine ⟨by decide, ?_⟩
  intro t h
  simp [_get_canonical_skill, h]

set_option maxRecDepth 100000 in
/-- C8 witness: both parts at concrete inputs. -/
theorem c8_witness :
    _get_canonical_skill "Python" = "Python" ∧ _get_canonical_skill "lake" = "lake" :=
  ⟨c8_canonicalize_idempotent_total.1 ("Python", ["python"]) (by decide),
    c8_canonicalize_idempotent_total.2 "lake" (by decide)⟩

/-! ### C10: the alias table inverts without loss -/

set_option maxRecDepth 1000000 in
/-- C10: no alias is claimed by two canonical skills (all alias bindings have
distinct keys), hence the dictionary comprehension loses no entries (the
number of distinct keys equals the sum of the alias-set sizes) and maps every
alias to the canonical skill that lists it. -/
theorem c10_alias_table_lossless :
    (ALIAS_TO_CANONICAL.map Prod.fst).Nodup ∧
    (ALIAS_TO_CANONICAL.map Prod.fst).dedup.length =
      (CANONICAL_SKILLS_MAP.map (fun p => p.2.length)).sum ∧
    (∀ p ∈ CANONICAL_SKILLS_MAP, ∀ a ∈ p.2, lastLookup ALIAS_TO_CANONICAL a = some p.1) :=
  ⟨by decide, by decide, by decide⟩

set_option maxRecDepth 100000 in
/-- C10 witness: the inverse index at a concrete alias. -/
theorem c10_witness : lastLookup ALIAS_TO_CANONICAL "reactjs" = some "React" :=
  c10_alias_table_lossless.2.2 ("React", ["react", "reactjs"]) (by decide) "reactjs" (by decide)

/-! ### Set-as-list infrastructure -/

theorem mem_insertSet_iff {x y : String} {l : List String} :
    y ∈ insertSet x l ↔ y = x ∨ y ∈ l := by
  unfold insertSet
  split
  · rename_i h
    constructor
    · exact Or.inr
    · rintro (rfl | hy) <;> assumption
  · simp [or_comm]

theorem insertSet_nodup {x : String} {l : List String} (h : l.Nodup) :
    (insertSet x l).Nodup := by
  unfold insertSet
  split
  · exact h
  · rename_i hx
    simpa [List.nodup_append] using ⟨h, hx⟩

theorem foldl_insertSet_mem (f : String → String) :
    ∀ (l : List String) (acc : List String) (x : String),
      (x ∈ l.foldl (fun a s => insertSet (f s) a) acc ↔ x ∈ acc ∨ ∃ s ∈ l, x = f s)
  | [], acc, x => by simp
  | s :: t, acc, x => by
    rw [List.foldl_cons, foldl_insertSet_mem f t, mem_insertSet_iff]
    simp only [List.mem_cons]
    constructor
    · rintro ((rfl | hacc) | ⟨u, hu, rfl⟩)
      · exact Or.inr ⟨s, Or.inl rfl, rfl⟩
      · exact Or.inl hacc
      · exact Or.inr ⟨u, Or.inr hu, rfl⟩
    · rintro (hacc | ⟨u, (rfl | hu), rfl⟩)
      · exact Or.inl (Or.inr hacc)
      · exact Or.inl (Or.inl rfl)
      · exact Or.inr ⟨u, hu, rfl⟩

theorem foldl_insertSet_nodup (f : String → String) :
    ∀ (l : List String) (acc : List String), acc.Nodup →
      (l.foldl (fun a s => insertSet (f s) a) acc).Nodup
  | [], _, h => h
  | _ :: t, acc, h =>
    foldl_insertSet_nodup f t (insertSet _ acc) (insertSet_nodup h)

theorem mem_canonLowerSet_iff {skills : List String} {x : String} :
    x ∈ canonLowerSet skills ↔ ∃ s ∈ skills, x = lowerStr (_get_canonical_skill s) := by
  unfold canonLowerSet
  rw [foldl_insertSet_mem]
  simp

theorem canonLowerSet_nodup (skills : List String) : (canonLowerSet skills).Nodup :=
  foldl_insertSet_nodup _ skills [] List.nodup_nil

theorem matched_lower_subset (resume jd : List String) :
    matched_lower_skills resume jd ⊆ canonLowerSet jd := by
  intro x hx
  unfold matched_lower_skills at hx
  have := List.mem_filter.mp hx
  exact of_decide_eq_true this.2

theorem matched_lower_nodup (resume jd : List String) :
    (matched_lower_skills resume jd).Nodup :=
  (canonLowerSet_nodup resume).filter _

theorem matched_lower_length_le (resume jd : List String) :
    (matched_lower_skills resume jd).length ≤ (canonLowerSet jd).length :=
  (List.subperm_of_subset (matched_lower_nodup resume jd)
    (matched_lower_subset resume jd)).length_le

/-! ### Rounding bounds -/

theorem roundHalfEven_cases (q : ℚ) :
    roundHalfEven q = ⌊q⌋ ∨ (roundHalfEven q = ⌊q⌋ + 1 ∧ 1 / 2 ≤ q - ⌊q⌋) := by
  simp only [roundHalfEven]
  split_ifs with h1 h2 h3
  · exact Or.inl rfl
  · exact Or.inr ⟨rfl, le_of_lt h2⟩
  · exact Or.inl rfl
  · exact Or.inr ⟨rfl, le_of_not_lt h1⟩

theorem pyRound2_nonneg {q : ℚ} (h : 0 ≤ q) : 0 ≤ pyRound2 q := by
  unfold pyRound2
  have hf : (0 : ℤ) ≤ ⌊q * 100⌋ := Int.floor_nonneg.mpr (by positivity)
  rcases roundHalfEven_cases (q * 100) with hr | ⟨hr, _⟩ <;> rw [hr] <;> positivity

theorem pyRound2_le_100 {q : ℚ} (h : q ≤ 100) : pyRound2 q ≤ 100 := by
  unfold pyRound2
  have h100 : q * 100 ≤ 10000 := by linarith
  have hle : (roundHalfEven (q * 100) : ℚ) ≤ 10000 := by
    rcases roundHalfEven_cases (q * 100) with hr | ⟨hr, hhalf⟩
    · rw [hr]
      calc ((⌊q * 100⌋ : ℚ)) ≤ q * 100 := Int.floor_le _
        _ ≤ 10000 := h100
    · rw [hr]
      have hfl : (⌊q * 100⌋ : ℚ) ≤ q * 100 - 1 / 2 := by linarith
      have : (⌊q * 100⌋ : ℚ) ≤ (9999 : ℚ) + 1 / 2 := by linarith
      have hz : ⌊q * 100⌋ ≤ 9999 := by
        by_contra hc
        push_neg at hc
        have : ((10000 : ℤ) : ℚ) ≤ (⌊q * 100⌋ : ℚ) := by exact_mod_cast hc
        push_cast at this
        linarith
      push_cast
      have : ((⌊q * 100⌋ : ℤ) : ℚ) ≤ 9999 := by exact_mod_cast hz
      linarith
  linarith

/-! ### C3: the fit-score formula and its bounds -/

/-- C3: the fit score is `0` when the canonicalized target set is empty and
`round(100 * |matched| / |T|, 2)` otherwise, and is always within `[0, 100]`. -/
theorem c3_fit_score_formula_and_bounds (resume jd : List String) :
    (canonLowerSet jd = [] → (calculate_job_fit_score resume jd).fit_score = 0) ∧
    (canonLowerSet jd ≠ [] →
      (calculate_job_fit_score resume jd).fit_score =
        pyRound2 (100 * ((matched_lower_skills resume jd).length : ℚ) /
          ((canonLowerSet jd).length : ℚ))) ∧
    0 ≤ (calculate_job_fit_score resume jd).fit_score ∧
    (calculate_job_fit_score resume jd).fit_score ≤ 100 := by
  have hfit : (calculate_job_fit_score resume jd).fit_score =
      pyRound2
        (if 0 < (canonLowerSet jd).length then
          ((matched_lower_skills resume jd).length : ℚ) /
              ((canonLowerSet jd).length : ℚ) * 100
        else 0) := rfl
  have hzero : pyRound2 0 = 0 := by
    unfold pyRound2 roundHalfEven
    norm_num
  by_cases hT : canonLowerSet jd = []
  · have hlen : (canonLowerSet jd).length = 0 := by rw [hT]; rfl
    refine ⟨fun _ => ?_, fun hc => absurd hT hc, ?_, ?_⟩
    · rw [hfit, hlen, if_neg (lt_irrefl 0), hzero]
    · rw [hfit, hlen, if_neg (lt_irrefl 0), hzero]
    · rw [hfit, hlen, if_neg (lt_irrefl 0), hzero]; norm_num
  · have hlen : 0 < (canonLowerSet jd).length := List.length_pos.mpr hT
    have harg : ((matched_lower_skills resume jd).length : ℚ) /
        ((canonLowerSet jd).length : ℚ) * 100 =
        100 * ((matched_lower_skills resume jd).length : ℚ) /
          ((canonLowerSet jd).length : ℚ) := by ring
    have hm := matched_lower_length_le resume jd
    have hlenQ : (0 : ℚ) < ((canonLowerSet jd).length : ℚ) := by exact_mod_cast hlen
    have hmQ : ((matched_lower_skills resume jd).length : ℚ) ≤
        ((canonLowerSet jd).length : ℚ) := by exact_mod_cast hm
    have hub : ((matched_lower_skills resume jd).length : ℚ) /
        ((canonLowerSet jd).length : ℚ) * 100 ≤ 100 := by
      have : ((matched_lower_skills resume jd).length : ℚ) /
          ((canonLowerSet jd).length : ℚ) ≤ 1 := by
        rw [div_le_one hlenQ]; exact hmQ
      linarith
    have hlb : (0 : ℚ) ≤ ((matched_lower_skills resume jd).length : ℚ) /
        ((canonLowerSet jd).length : ℚ) * 100 := by positivity
    refine ⟨fun hc => absurd hc hT, fun _ => ?_, ?_, ?_⟩
    · rw [hfit, if_pos hlen, harg]
    · rw [hfit, if_pos hlen]
      exact pyRound2_nonneg hlb
    · rw [hfit, if_pos hlen]
      exact pyRound2_le_100 hub

/-- C3 witness: both branches of the formula at concrete inputs, via the
theorem. -/
theorem c3_witness :
    (calculate_job_fit_score ["python"] []).fit_score = 0 ∧
    (calculate_job_fit_score ["python"] ["Python"]).fit_score =
      pyRound2 (100 * ((matched_lower_skills ["python"] ["Python"]).length : ℚ) /
        ((canonLowerSet ["Python"]).length : ℚ)) :=
  ⟨(c3_fit_score_formula_and_bounds ["python"] []).1 (by decide),
    (c3_fit_score_formula_and_bounds ["python"] ["Python"]).2.1 (by decide)⟩

/-! ### Character-level lemmas for the ASCII case mapping -/

theorem toNat_ofNat_valid {n : Nat} (h : n < 55296) : (Char.ofNat n).toNat = n := by
  unfold Char.ofNat
  rw [dif_pos (Or.inl (by exact_mod_cast h))]
  simp [Char.ofNatAux, Char.toNat, UInt32.toNat]

theorem toLower_def (c : Char) :
    Char.toLower c = if 65 ≤ c.toNat ∧ c.toNat ≤ 90 then Char.ofNat (c.toNat + 32) else c := rfl

theorem toUpper_def (c : Char) :
    Char.toUpper c = if 97 ≤ c.toNat ∧ c.toNat ≤ 122 then Char.ofNat (c.toNat - 32) else c := rfl

theorem toLower_eq_self {c : Char} (h : ¬ (65 ≤ c.toNat ∧ c.toNat ≤ 90)) :
    Char.toLower c = c := by
  rw [toLower_def, if_neg h]

theorem toLower_toLower (c : Char) : Char.toLower (Char.toLower c) = Char.toLower c := by
  by_cases h : 65 ≤ c.toNat ∧ c.toNat ≤ 90
  · have h1 : Char.toLower c = Char.ofNat (c.toNat + 32) := by rw [toLower_def, if_pos h]
    have h2 : (Char.ofNat (c.toNat + 32)).toNat = c.toNat + 32 := toNat_ofNat_valid (by omega)
    rw [h1]
    exact toLower_eq_self (by rw [h2]; omega)
  · rw [toLower_eq_self h]
    exact toLower_eq_self h

theorem toLower_toUpper (c : Char) : Char.toLower (Char.toUpper c) = Char.toLower c := by
  by_cases h : 97 ≤ c.toNat ∧ c.toNat ≤ 122
  · have h1 : Char.toUpper c = Char.ofNat (c.toNat - 32) := by rw [toUpper_def, if_pos h]
    have h2 : (Char.ofNat (c.toNat - 32)).toNat = c.toNat - 32 := toNat_ofNat_valid (by omega)
    have h3 : Char.toLower (Char.ofNat (c.toNat - 32)) = Char.ofNat (c.toNat - 32 + 32) := by
      rw [toLower_def, if_pos (by rw [h2]; omega), h2]
    have h4 : c.toNat - 32 + 32 = c.toNat := by omega
    rw [h1, h3, h4, Char.ofNat_toNat, toLower_def, if_neg (by omega)]
  · have h1 : Char.toUpper c = c := by rw [toUpper_def, if_neg h]
    rw [h1]

theorem lowerL_idem (l : List Char) : lowerL (lowerL l) = lowerL l := by
  unfold lowerL
  rw [List.map_map]
  exact List.map_congr_left fun c _ => toLower_toLower c

theorem lowerStr_idem (s : String) : lowerStr (lowerStr s) = lowerStr s :=
  congrArg String.mk (lowerL_idem s.data)

theorem lowerL_titleL : ∀ (b : Bool) (l : List Char), lowerL (titleL b l) = lowerL l
  | _, [] => rfl
  | b, c :: r => by
    have hcons : ∀ (d : Char) (t : List Char), lowerL (d :: t) = Char.toLower d :: lowerL t :=
      fun d t => rfl
    by_cases hb : isAsciiLetter c = true
    · have hstep : titleL b (c :: r) =
          (if b then Char.toLower c else Char.toUpper c) :: titleL true r := by
        conv_lhs => unfold titleL
        rw [if_pos hb]
      rw [hstep, hcons, hcons, lowerL_titleL true r]
      congr 1
      cases b
      · rw [if_neg (by simp)]
        exact toLower_toUpper c
      · rw [if_pos rfl]
        exact toLower_toLower c
    · have hstep : titleL b (c :: r) = c :: titleL false r := by
        conv_lhs => unfold titleL
        rw [if_neg hb]
      rw [hstep, hcons, hcons, lowerL_titleL false r]

theorem lowerStr_titleStr (s : String) : lowerStr (titleStr s) = lowerStr s :=
  congrArg String.mk (lowerL_titleL false s.data)

/-! ### The alias table: lookup facts -/

set_option maxRecDepth 1000000 in
theorem alias_lookup_keys :
    ∀ p ∈ CANONICAL_SKILLS_MAP, lastLookup ALIAS_TO_CANONICAL (lowerStr p.1) = some p.1 := by
  decide

set_option maxRecDepth 1000000 in
theorem alias_values_are_keys :
    ∀ p ∈ ALIAS_TO_CANONICAL, ∃ q ∈ CANONICAL_SKILLS_MAP, q.1 = p.2 := by
  decide

theorem mem_of_lastLookup {l : List (String × String)} {a c : String}
    (h : lastLookup l a = some c) : (a, c) ∈ l := by
  unfold lastLookup at h
  obtain ⟨l₁, l₂, hsplit, -⟩ := List.lookup_eq_some_iff.mp h
  have : (a, c) ∈ l.reverse := by rw [hsplit]; simp
  exact List.mem_reverse.mp this

theorem getCanonical_of_lookup {s K : String}
    (h : lastLookup ALIAS_TO_CANONICAL (lowerStr s) = some K) :
    _get_canonical_skill s = K := by
  unfold _get_canonical_skill
  rw [h]
  rfl

theorem getCanonical_of_none {s : String}
    (h : lastLookup ALIAS_TO_CANONICAL (lowerStr s) = none) :
    _get_canonical_skill s = s := by
  unfold _get_canonical_skill
  rw [h]
  rfl

theorem getCanonical_key {K : String} (hK : ∃ as, (K, as) ∈ CANONICAL_SKILLS_MAP) :
    _get_canonical_skill K = K := by
  obtain ⟨as, hmem⟩ := hK
  exact getCanonical_of_lookup (alias_lookup_keys (K, as) hmem)

/-- Every canonicalization result is either a key of the map (when the
lowercased token is a known alias) or the unchanged token (when it is not). -/
theorem canonical_cases (s : String) :
    (∃ K, (∃ as, (K, as) ∈ CANONICAL_SKILLS_MAP) ∧ _get_canonical_skill s = K ∧
      lastLookup ALIAS_TO_CANONICAL (lowerStr s) = some K) ∨
    (lastLookup ALIAS_TO_CANONICAL (lowerStr s) = none ∧ _get_canonical_skill s = s) := by
  cases h : lastLookup ALIAS_TO_CANONICAL (lowerStr s) with
  | none => exact Or.inr ⟨rfl, getCanonical_of_none h⟩
  | some c =>
    left
    refine ⟨c, ?_, getCanonical_of_lookup h, rfl⟩
    obtain ⟨q, hq, hqc⟩ := alias_values_are_keys _ (mem_of_lastLookup h)
    have hqc2 : q.1 = c := hqc
    refine ⟨q.2, ?_⟩
    have hq2 : (c, q.2) = q := by rw [← hqc2]
    rw [hq2]
    exact hq

/-! ### `_normalize_skill_casing`: characterization -/

theorem normalize_eq_key {x K : String} (hK : ∃ as, (K, as) ∈ CANONICAL_SKILLS_MAP)
    (h : _get_canonical_skill x = K) : _normalize_skill_casing x = K := by
  unfold _normalize_skill_casing
  rw [h]
  show (match CANONICAL_SKILLS_MAP.find? (fun p => p.1 == K) with
    | some p => p.1
    | none => titleStr K) = K
  obtain ⟨as, hmem⟩ := hK
  cases hf : CANONICAL_SKILLS_MAP.find? (fun p => p.1 == K) with
  | none =>
    exfalso
    have := List.find?_eq_none.mp hf (K, as) hmem
    simp at this
  | some q =>
    have := List.find?_some hf
    simpa using this

theorem not_key_of_lookup_none {t : String}
    (h : lastLookup ALIAS_TO_CANONICAL (lowerStr t) = none) :
    ∀ p ∈ CANONICAL_SKILLS_MAP, ¬ p.1 = t := by
  intro p hp hpt
  have := alias_lookup_keys p hp
  rw [hpt, h] at this
  exact Option.noConfusion this

theorem normalize_nonalias {t : String}
    (h : lastLookup ALIAS_TO_CANONICAL (lowerStr t) = none) :
    _normalize_skill_casing t = titleStr t := by
  unfold _normalize_skill_casing
  rw [getCanonical_of_none h]
  show (match CANONICAL_SKILLS_MAP.find? (fun p => p.1 == t) with
    | some p => p.1
    | none => titleStr t) = titleStr t
  rw [List.find?_eq_none.mpr (fun p hp => by
    simpa using not_key_of_lookup_none h p hp)]

/-- The lowercased canonical form of the display form of a canonical form is
the lowercased canonical form itself. -/
theorem canonLower_normalize (s : String) :
    canonLower (_normalize_skill_casing (_get_canonical_skill s)) = canonLower s := by
  unfold canonLower
  rcases canonical_cases s with ⟨K, hK, hcan, -⟩ | ⟨hnone, hcan⟩
  · rw [hcan, normalize_eq_key hK (getCanonical_key hK), getCanonical_key hK]
  · rw [hcan, normalize_nonalias hnone]
    have hlook : lastLookup ALIAS_TO_CANONICAL (lowerStr (titleStr s)) = none := by
      rw [lowerStr_titleStr]; exact hnone
    rw [getCanonical_of_none hlook]
    exact lowerStr_titleStr s

/-! ### Membership in the presentation lists -/

theorem displayStep_def (keep : String → Prop) [DecidablePred keep] (acc : List String)
    (s : String) :
    displayStep keep acc s =
      if keep (lowerStr (_get_canonical_skill s)) ∧
          _normalize_skill_casing (_get_canonical_skill s) ∉ acc then
        acc ++ [_normalize_skill_casing (_get_canonical_skill s)]
      else acc := rfl

theorem mem_displayFold (keep : String → Prop) [DecidablePred keep] :
    ∀ (src acc : List String) (x : String),
      (x ∈ src.foldl (displayStep keep) acc ↔
        x ∈ acc ∨ ∃ s ∈ src, keep (lowerStr (_get_canonical_skill s)) ∧
          x = _normalize_skill_casing (_get_canonical_skill s))
  | [], acc, x => by simp
  | s :: t, acc, x => by
    rw [List.foldl_cons, displayStep_def]
    by_cases hk : keep (lowerStr (_get_canonical_skill s))
    · by_cases hd : _normalize_skill_casing (_get_canonical_skill s) ∈ acc
      · rw [if_neg (fun hc => hc.2 hd), mem_displayFold keep t acc x]
        constructor
        · rintro (hx | ⟨u, hu, hku, hxu⟩)
          · exact Or.inl hx
          · exact Or.inr ⟨u, List.mem_cons_of_mem s hu, hku, hxu⟩
        · rintro (hx | ⟨u, hu, hku, hxu⟩)
          · exact Or.inl hx
          · rcases List.mem_cons.mp hu with rfl | hu2
            · exact Or.inl (hxu ▸ hd)
            · exact Or.inr ⟨u, hu2, hku, hxu⟩
      · rw [if_pos ⟨hk, hd⟩, mem_displayFold keep t _ x]
        constructor
        · rintro (hx | ⟨u, hu, hku, hxu⟩)
          · rcases List.mem_append.mp hx with h1 | h1
            · exact Or.inl h1
            · exact Or.inr ⟨s, List.mem_cons_self s t, hk, List.mem_singleton.mp h1⟩
          · exact Or.inr ⟨u, List.mem_cons_of_mem s hu, hku, hxu⟩
        · rintro (hx | ⟨u, hu, hku, hxu⟩)
          · exact Or.inl (List.mem_append.mpr (Or.inl hx))
          · rcases List.mem_cons.mp hu with rfl | hu2
            · exact Or.inl (List.mem_append.mpr (Or.inr (by simp [hxu])))
            · exact Or.inr ⟨u, hu2, hku, hxu⟩
    · rw [if_neg (fun hc => hk hc.1), mem_displayFold keep t acc x]
      constructor
      · rintro (hx | ⟨u, hu, hku, hxu⟩)
        · exact Or.inl hx
        · exact Or.inr ⟨u, List.mem_cons_of_mem s hu, hku, hxu⟩
      · rintro (hx | ⟨u, hu, hku, hxu⟩)
        · exact Or.inl hx
        · rcases List.mem_cons.mp hu with rfl | hu2
          · exact absurd hku hk
          · exact Or.inr ⟨u, hu2, hku, hxu⟩

theorem mem_buildDisplayList {keep : String → Prop} [DecidablePred keep]
    {src : List String} {x : String} :
    x ∈ buildDisplayList src keep ↔
      ∃ s ∈ src, keep (lowerStr (_get_canonical_skill s)) ∧
        x = _normalize_skill_casing (_get_canonical_skill s) := by
  unfold buildDisplayList
  rw [(sortStr_perm _).mem_iff, mem_displayFold]
  simp

theorem mem_matched_lower_iff {resume jd x} :
    x ∈ matched_lower_skills resume jd ↔
      x ∈ canonLowerSet resume ∧ x ∈ canonLowerSet jd := by
  unfold matched_lower_skills
  rw [List.mem_filter]
  simp

theorem canonLower_def (s : String) : canonLower s = lowerStr (_get_canonical_skill s) := rfl

/-! ### C2: the partition law -/

set_option maxRecDepth 100000 in
/-- C2: as sets of canonicalized (lowercased canonical) names, the matched
and missing lists partition the canonicalized target set, the two lists are
disjoint, and the extra list is the canonicalized source set minus the
target set. -/
theorem c2_partition_law (resume jd : List String) :
    (((calculate_job_fit_score resume jd).matched_skills.map canonLower).toFinset ∪
        ((calculate_job_fit_score resume jd).missing_skills.map canonLower).toFinset =
      (canonLowerSet jd).toFinset) ∧
    (∀ x ∈ (calculate_job_fit_score resume jd).matched_skills,
      x ∉ (calculate_job_fit_score resume jd).missing_skills) ∧
    ((calculate_job_fit_score resume jd).extra_skills.map canonLower).toFinset =
      (canonLowerSet resume).toFinset \ (canonLowerSet jd).toFinset := by
  have hM : (calculate_job_fit_score resume jd).matched_skills =
      buildDisplayList jd (fun c => c ∈ matched_lower_skills resume jd) := rfl
  have hMi : (calculate_job_fit_score resume jd).missing_skills =
      buildDisplayList jd (fun c => c ∉ canonLowerSet resume) := rfl
  have hE : (calculate_job_fit_score resume jd).extra_skills =
      buildDisplayList resume (fun c => c ∉ canonLowerSet jd) := rfl
  refine ⟨?_, ?_, ?_⟩
  · apply Finset.ext
    intro t
    simp only [Finset.mem_union, List.mem_toFinset, List.mem_map]
    constructor
    · rintro (⟨x, hx, rfl⟩ | ⟨x, hx, rfl⟩)
      · rw [hM] at hx
        obtain ⟨s, hs, hks, rfl⟩ := mem_buildDisplayList.mp hx
        rw [canonLower_normalize, canonLower_def]
        exact mem_canonLowerSet_iff.mpr ⟨s, hs, rfl⟩
      · rw [hMi] at hx
        obtain ⟨s, hs, hks, rfl⟩ := mem_buildDisplayList.mp hx
        rw [canonLower_normalize, canonLower_def]
        exact mem_canonLowerSet_iff.mpr ⟨s, hs, rfl⟩
    · intro ht
      obtain ⟨s, hs, rfl⟩ := mem_canonLowerSet_iff.mp ht
      have hT : lowerStr (_get_canonical_skill s) ∈ canonLowerSet jd :=
        mem_canonLowerSet_iff.mpr ⟨s, hs, rfl⟩
      by_cases hR : lowerStr (_get_canonical_skill s) ∈ canonLowerSet resume
      · left
        refine ⟨_normalize_skill_casing (_get_canonical_skill s), ?_, ?_⟩
        · rw [hM]
          exact mem_buildDisplayList.mpr ⟨s, hs, mem_matched_lower_iff.mpr ⟨hR, hT⟩, rfl⟩
        · rw [canonLower_normalize, canonLower_def]
      · right
        refine ⟨_normalize_skill_casing (_get_canonical_skill s), ?_, ?_⟩
        · rw [hMi]
          exact mem_buildDisplayList.mpr ⟨s, hs, hR, rfl⟩
        · rw [canonLower_normalize, canonLower_def]
  · intro x hx hx2
    rw [hM] at hx
    rw [hMi] at hx2
    obtain ⟨s1, hs1, hk1, hxe1⟩ := mem_buildDisplayList.mp hx
    obtain ⟨s2, hs2, hk2, hxe2⟩ := mem_buildDisplayList.mp hx2
    have e1 : canonLower x = lowerStr (_get_canonical_skill s1) := by
      rw [hxe1, canonLower_normalize, canonLower_def]
    have e2 : canonLower x = lowerStr (_get_canonical_skill s2) := by
      rw [hxe2, canonLower_normalize, canonLower_def]
    have hR1 : canonLower x ∈ canonLowerSet resume := by
      rw [e1]
      exact (mem_matched_lower_iff.mp hk1).1
    have hR2 : canonLower x ∉ canonLowerSet resume := by
      rw [e2]
      exact hk2
    exact hR2 hR1
  · apply Finset.ext
    intro t
    simp only [List.mem_toFinset, List.mem_map, Finset.mem_sdiff]
    constructor
    · rintro ⟨x, hx, rfl⟩
      rw [hE] at hx
      obtain ⟨s, hs, hk, rfl⟩ := mem_buildDisplayList.mp hx
      rw [canonLower_normalize, canonLower_def]
      exact ⟨mem_canonLowerSet_iff.mpr ⟨s, hs, rfl⟩, hk⟩
    · rintro ⟨htS, htT⟩
      obtain ⟨s, hs, rfl⟩ := mem_canonLowerSet_iff.mp htS
      refine ⟨_normalize_skill_casing (_get_canonical_skill s), ?_, ?_⟩
      · rw [hE]
        exact mem_buildDisplayList.mpr ⟨s, hs, htT, rfl⟩
      · rw [canonLower_normalize, canonLower_def]

set_option maxRecDepth 100000 in
/-- C2 witness: disjointness of the matched and missing lists applied at the
concrete scenario. -/
theorem c2_witness :
    "AWS" ∉ (calculate_job_fit_score ["python", "AWS", "Django"]
      ["Python", "SQL", "AWS"]).missing_skills :=
  (c2_partition_law ["python", "AWS", "Django"] ["Python", "SQL", "AWS"]).2.1 "AWS" (by decide)

/-! ### Generic facts about the accumulation folds -/

theorem foldl_superset_of {γ : Type} (step : List String → γ → List String) :
    ∀ (l : List γ), (∀ e ∈ l, ∀ acc x, x ∈ acc → x ∈ step acc e) →
      ∀ (acc : List String) (x : String), x ∈ acc → x ∈ l.foldl step acc
  | [], _, _, _, hx => hx
  | e :: t, hstep, acc, x, hx =>
    foldl_superset_of step t (fun f hf => hstep f (List.mem_cons_of_mem e hf)) _ x
      (hstep e (List.mem_cons_self e t) acc x hx)

theorem foldl_mem_elim {γ : Type} (P : String → Prop) (step : List String → γ → List String) :
    ∀ (l : List γ), (∀ e ∈ l, ∀ acc x, x ∈ step acc e → x ∈ acc ∨ P x) →
      ∀ (acc : List String) (x : String), x ∈ l.foldl step acc → x ∈ acc ∨ P x
  | [], _, _, _, hx => Or.inl hx
  | e :: t, hstep, acc, x, hx => by
    rcases foldl_mem_elim P step t (fun f hf => hstep f (List.mem_cons_of_mem e hf)) _ x hx with
      h1 | h1
    · exact hstep e (List.mem_cons_self e t) acc x h1
    · exact Or.inr h1

theorem foldl_nodup_of {γ : Type} (step : List String → γ → List String) :
    ∀ (l : List γ), (∀ e ∈ l, ∀ acc : List String, acc.Nodup → (step acc e).Nodup) →
      ∀ (acc : List String), acc.Nodup → (l.foldl step acc).Nodup
  | [], _, _, h => h
  | e :: t, hstep, acc, h =>
    foldl_nodup_of step t (fun f hf => hstep f (List.mem_cons_of_mem e hf)) _
      (hstep e (List.mem_cons_self e t) acc h)

theorem foldl_mem_intro {γ : Type} (step : List String → γ → List String) :
    ∀ (l : List γ), (∀ e ∈ l, ∀ acc x, x ∈ acc → x ∈ step acc e) →
      ∀ {e : γ} {v : String}, e ∈ l → (∀ acc, v ∈ step acc e) →
        ∀ (acc : List String), v ∈ l.foldl step acc
  | [], _, _, _, he, _, _ => absurd he (List.not_mem_nil _)
  | f :: t, hsup, e, v, he, hv, acc => by
    rcases List.mem_cons.mp he with rfl | he2
    · exact foldl_superset_of step t
        (fun g hg => hsup g (List.mem_cons_of_mem e hg)) _ v (hv acc)
    · exact foldl_mem_intro step t (fun g hg => hsup g (List.mem_cons_of_mem f hg)) he2 hv _

/-! ### The inner conditional-insert folds of phases 1 and 3 -/

theorem condInsert_superset (f : String → String) (cond : String → Bool)
    (acc2 : List String) (b : String) :
    ∀ x ∈ acc2, x ∈ (if cond b then insertSet (f b) acc2 else acc2) := by
  intro x hx
  split
  · exact mem_insertSet_iff.mpr (Or.inr hx)
  · exact hx

theorem condInsert_elim (f : String → String) (cond : String → Bool)
    (acc2 : List String) (b x : String)
    (hx : x ∈ (if cond b then insertSet (f b) acc2 else acc2)) :
    x ∈ acc2 ∨ x = f b := by
  by_cases hc : cond b = true
  · rw [if_pos hc] at hx
    rcases mem_insertSet_iff.mp hx with h | h
    · exact Or.inr h
    · exact Or.inl h
  · rw [if_neg hc] at hx
    exact Or.inl hx

theorem condInsert_nodup (f : String → String) (cond : String → Bool)
    (acc2 : List String) (b : String) (h : acc2.Nodup) :
    (if cond b then insertSet (f b) acc2 else acc2).Nodup := by
  split
  · exact insertSet_nodup h
  · exact h

/-! ### Phase 1: superset, invariant, membership -/

theorem phase1_superset (tl : List Char) (found : List String) :
    ∀ x ∈ found, x ∈ phase1 tl found := by
  intro x hx
  exact foldl_superset_of _ CANONICAL_SKILLS_MAP
    (fun p _ acc y hy =>
      foldl_superset_of _ p.2
        (fun al _ acc2 z hz =>
          condInsert_superset (fun _ => lowerStr p.1)
            (fun al2 => wordBoundedContains al2.data tl) acc2 al z hz)
        acc y hy)
    found x hx

theorem phase1_inv (tl : List Char) (found : List String) :
    ∀ x ∈ phase1 tl found, x ∈ found ∨ SkillInv x := by
  intro x hx
  exact foldl_mem_elim SkillInv _ CANONICAL_SKILLS_MAP
    (fun p hp acc y hy => by
      rcases foldl_mem_elim (fun z => SkillInv z) _ p.2
          (fun al _ acc2 z hz => by
            rcases condInsert_elim (fun _ => lowerStr p.1)
                (fun al2 => wordBoundedContains al2.data tl) acc2 al z hz with h | h
            · exact Or.inl h
            · exact Or.inr (Or.inl ⟨p, hp, h⟩))
          acc y hy with h1 | h1
      · exact Or.inl h1
      · exact Or.inr h1)
    found x hx

theorem phase1_nodup (tl : List Char) (found : List String) (h : found.Nodup) :
    (phase1 tl found).Nodup :=
  foldl_nodup_of _ CANONICAL_SKILLS_MAP
    (fun p _ acc ha =>
      foldl_nodup_of _ p.2
        (fun al _ acc2 ha2 =>
          condInsert_nodup (fun _ => lowerStr p.1)
            (fun al2 => wordBoundedContains al2.data tl) acc2 al ha2)
        acc ha)
    found h

theorem phase1_mem_intro {p : String × List String} {al : String} {tl : List Char}
    (hp : p ∈ CANONICAL_SKILLS_MAP) (ha : al ∈ p.2)
    (hw : wordBoundedContains al.data tl = true) (found : List String) :
    lowerStr p.1 ∈ phase1 tl found := by
  refine foldl_mem_intro _ CANONICAL_SKILLS_MAP
    (fun q _ acc y hy =>
      foldl_superset_of _ q.2
        (fun al2 _ acc2 z hz =>
          condInsert_superset (fun _ => lowerStr q.1)
            (fun al3 => wordBoundedContains al3.data tl) acc2 al2 z hz)
        acc y hy)
    hp ?_ found
  intro acc
  refine foldl_mem_intro _ p.2
    (fun al2 _ acc2 z hz =>
      condInsert_superset (fun _ => lowerStr p.1)
        (fun al3 => wordBoundedContains al3.data tl) acc2 al2 z hz)
    ha ?_ acc
  intro acc2
  rw [if_pos hw]
  exact mem_insertSet_iff.mpr (Or.inl rfl)

/-! ### Phase 3: superset and invariant -/

theorem phase3_superset (tl : List Char) (found : List String) :
    ∀ x ∈ found, x ∈ phase3 tl found := by
  intro x hx
  exact foldl_superset_of _ tech_patterns
    (fun pat _ acc y hy =>
      foldl_superset_of _ pat
        (fun lit _ acc2 z hz =>
          condInsert_superset (fun lit2 => lowerStr (_get_canonical_skill lit2))
            (fun lit2 => wordBoundedContains lit2.data tl) acc2 lit z hz)
        acc y hy)
    found x hx

theorem skillInv_canonLower (lit : String) : SkillInv (lowerStr (_get_canonical_skill lit)) := by
  rcases canonical_cases lit with ⟨K, ⟨as, hmem⟩, hcan, -⟩ | ⟨hnone, hcan⟩
  · rw [hcan]
    exact Or.inl ⟨(K, as), hmem, rfl⟩
  · rw [hcan]
    exact Or.inr ⟨lowerStr_idem lit, hnone⟩

theorem phase3_inv (tl : List Char) (found : List String) :
    ∀ x ∈ phase3 tl found, x ∈ found ∨ SkillInv x := by
  intro x hx
  exact foldl_mem_elim SkillInv _ tech_patterns
    (fun pat _ acc y hy => by
      rcases foldl_mem_elim (fun z => SkillInv z) _ pat
          (fun lit _ acc2 z hz => by
            rcases condInsert_elim (fun lit2 => lowerStr (_get_canonical_skill lit2))
                (fun lit2 => wordBoundedContains lit2.data tl) acc2 lit z hz with h | h
            · exact Or.inl h
            · exact Or.inr (h ▸ skillInv_canonLower lit))
          acc y hy with h1 | h1
      · exact Or.inl h1
      · exact Or.inr h1)
    found x hx

theorem phase3_nodup (tl : List Char) (found : List String) (h : found.Nodup) :
    (phase3 tl found).Nodup :=
  foldl_nodup_of _ tech_patterns
    (fun pat _ acc ha =>
      foldl_nodup_of _ pat
        (fun lit _ acc2 ha2 =>
          condInsert_nodup (fun lit2 => lowerStr (_get_canonical_skill lit2))
            (fun lit2 => wordBoundedContains lit2.data tl) acc2 lit ha2)
        acc ha)
    found h

/-! ### Phase 2: case analysis, superset, invariant -/

theorem skillInv_of_lookup {a c : String} (h : lastLookup ALIAS_TO_CANONICAL a = some c) :
    SkillInv (lowerStr c) := by
  obtain ⟨q, hq, hqc⟩ := alias_values_are_keys _ (mem_of_lastLookup h)
  have hqc2 : q.1 = c := hqc
  exact Or.inl ⟨q, hq, by rw [hqc2]⟩

set_option maxRecDepth 100000 in
theorem phase2Step_cases (acc : List String) (e : Ent) :
    phase2Step acc e = acc ∨ ∃ v, SkillInv v ∧ phase2Step acc e = insertSet v acc := by
  simp only [phase2Step]
  by_cases h1 : ¬ (1 ≤ (splitWs (stripStr e.text).data []).length ∧
      (splitWs (stripStr e.text).data []).length ≤ 5)
  · rw [if_pos h1]
    exact Or.inl rfl
  · rw [if_neg h1]
    by_cases h2 : lowerStr (stripStr e.text) ∈ non_skill_entities_lower ∨
        exclusionMatch (lowerStr (stripStr e.text)).data = true
    · rw [if_pos h2]
      exact Or.inl rfl
    · rw [if_neg h2]
      cases hl : lastLookup ALIAS_TO_CANONICAL (lowerStr (stripStr e.text)) with
      | some c => exact Or.inr ⟨lowerStr c, skillInv_of_lookup hl, rfl⟩
      | none =>
        dsimp only
        by_cases h3 : e.label ∈ (["ORG", "PRODUCT", "LANGUAGE", "WORK_OF_ART", "EVENT"] : List String)
        · rw [if_pos h3]
          by_cases h4 : lowerStr (stripStr e.text) ∈
              (["microsoft", "google", "amazon", "apple", "ibm", "oracle", "apache"] : List String)
          · rw [if_pos h4]
            exact Or.inl rfl
          · rw [if_neg h4]
            exact Or.inr ⟨lowerStr (stripStr e.text), Or.inr ⟨lowerStr_idem _, hl⟩, rfl⟩
        · rw [if_neg h3]
          by_cases h5 : (e.label == "PERSON") = true
          · rw [if_pos h5]
            by_cases h6 : (lowerStr (stripStr e.text) == "r") = true
            · rw [if_pos h6]
              exact Or.inr ⟨"r", Or.inl ⟨("R", ["r"]), by decide, by decide⟩, rfl⟩
            · rw [if_neg h6]
              exact Or.inl rfl
          · rw [if_neg h5]
            exact Or.inl rfl

theorem phase2Step_superset (acc : List String) (e : Ent) :
    ∀ x ∈ acc, x ∈ phase2Step acc e := by
  intro x hx
  rcases phase2Step_cases acc e with h | ⟨v, -, h⟩ <;> rw [h]
  · exact hx
  · exact mem_insertSet_iff.mpr (Or.inr hx)

theorem phase2Step_elim (acc : List String) (e : Ent) (x : String)
    (hx : x ∈ phase2Step acc e) : x ∈ acc ∨ SkillInv x := by
  rcases phase2Step_cases acc e with h | ⟨v, hv, h⟩ <;> rw [h] at hx
  · exact Or.inl hx
  · rcases mem_insertSet_iff.mp hx with rfl | h2
    · exact Or.inr hv
    · exact Or.inl h2

theorem phase2Step_nodup (acc : List String) (e : Ent) (h : acc.Nodup) :
    (phase2Step acc e).Nodup := by
  rcases phase2Step_cases acc e with hc | ⟨v, -, hc⟩ <;> rw [hc]
  · exact h
  · exact insertSet_nodup h

theorem phase2_superset (ents : List Ent) (found : List String) :
    ∀ x ∈ found, x ∈ phase2 ents found :=
  foldl_superset_of phase2Step ents (fun e _ acc x hx => phase2Step_superset acc e x hx) found

theorem phase2_inv (ents : List Ent) (found : List String) :
    ∀ x ∈ phase2 ents found, x ∈ found ∨ SkillInv x :=
  foldl_mem_elim SkillInv phase2Step ents (fun e _ acc x hx => phase2Step_elim acc e x hx) found

theorem phase2_nodup (ents : List Ent) (found : List String) (h : found.Nodup) :
    (phase2 ents found).Nodup :=
  foldl_nodup_of phase2Step ents (fun e _ acc ha => phase2Step_nodup acc e ha) found h

theorem phase2Step_empty {acc : List String} {e : Ent} (h : e.text = "") :
    phase2Step acc e = acc := by
  obtain ⟨etext, elabel⟩ := e
  have h2 : etext = "" := h
  subst h2
  rfl

theorem phase2_empty_texts :
    ∀ (ents : List Ent), (∀ e ∈ ents, e.text = "") → ∀ acc, phase2 ents acc = acc
  | [], _, _ => rfl
  | e :: t, h, acc => by
    unfold phase2
    rw [List.foldl_cons, phase2Step_empty (h e (List.mem_cons_self e t))]
    exact phase2_empty_texts t (fun f hf => h f (List.mem_cons_of_mem e hf)) acc

/-! ### The found set: invariant and uniqueness -/

theorem foundSkills_inv (ner : String → List Ent) (text : String) :
    ∀ x ∈ foundSkills ner text, SkillInv x := by
  intro x hx
  have hx2 : x ∈ phase3 (lowerStr text).data
      (phase2 (ner (lowerStr text)) (phase1 (lowerStr text).data [])) := hx
  rcases phase3_inv _ _ x hx2 with h1 | h1
  · rcases phase2_inv _ _ x h1 with h2 | h2
    · rcases phase1_inv _ _ x h2 with h3 | h3
      · exact absurd h3 (List.not_mem_nil x)
      · exact h3
    · exact h2
  · exact h1

theorem foundSkills_nodup (ner : String → List Ent) (text : String) :
    (foundSkills ner text).Nodup := by
  show (phase3 (lowerStr text).data
    (phase2 (ner (lowerStr text)) (phase1 (lowerStr text).data []))).Nodup
  exact phase3_nodup _ _ (phase2_nodup _ _ (phase1_nodup _ _ List.nodup_nil))

theorem normalize_lower_key {p : String × List String} (hp : p ∈ CANONICAL_SKILLS_MAP) :
    _normalize_skill_casing (lowerStr p.1) = p.1 := by
  apply normalize_eq_key ⟨p.2, by simpa using hp⟩
  apply getCanonical_of_lookup
  rw [lowerStr_idem]
  exact alias_lookup_keys p hp

theorem normalize_inj_on {s t : String} (hs : SkillInv s) (ht : SkillInv t)
    (h : _normalize_skill_casing s = _normalize_skill_casing t) : s = t := by
  rcases hs with ⟨p, hp, rfl⟩ | ⟨hls, hlook⟩
  · rcases ht with ⟨q, hq, rfl⟩ | ⟨hlt, hlookt⟩
    · rw [normalize_lower_key hp, normalize_lower_key hq] at h
      rw [h]
    · rw [normalize_lower_key hp,
        normalize_nonalias (by rw [hlt]; exact hlookt)] at h
      calc lowerStr p.1 = lowerStr (titleStr t) := by rw [h]
        _ = lowerStr t := lowerStr_titleStr t
        _ = t := hlt
  · rcases ht with ⟨q, hq, rfl⟩ | ⟨hlt, hlookt⟩
    · rw [normalize_lower_key hq,
        normalize_nonalias (by rw [hls]; exact hlook)] at h
      calc s = lowerStr s := hls.symm
        _ = lowerStr (titleStr s) := (lowerStr_titleStr s).symm
        _ = lowerStr q.1 := by rw [h]
    · rw [normalize_nonalias (by rw [hls]; exact hlook),
        normalize_nonalias (by rw [hlt]; exact hlookt)] at h
      calc s = lowerStr s := hls.symm
        _ = lowerStr (titleStr s) := (lowerStr_titleStr s).symm
        _ = lowerStr (titleStr t) := by rw [h]
        _ = lowerStr t := lowerStr_titleStr t
        _ = t := hlt

theorem extract_skills_eq (ner : String → List Ent) (text : String) :
    extract_skills ner text = sortStr ((foundSkills ner text).map _normalize_skill_casing) := rfl

/-! ### C7: the output is sorted and duplicate-free -/

/-- C7: for every NER behaviour and every text, `extract_skills` returns a
list that is lexicographically sorted (in the code-point order used by
Python's `sorted`) and contains no duplicate strings, even after mapping the
internal lowercase canonical forms to display casing. -/
theorem c7_sorted_and_unique (ner : String → List Ent) (text : String) :
    List.Sorted strLe (extract_skills ner text) ∧ (extract_skills ner text).Nodup := by
  constructor
  · exact sortStr_sorted _
  · rw [extract_skills_eq, (sortStr_perm _).nodup_iff]
    exact List.Nodup.map_on
      (fun x hx y hy hxy =>
        normalize_inj_on (foundSkills_inv ner text x hx) (foundSkills_inv ner text y hy) hxy)
      (foundSkills_nodup ner text)

/-! ### C9: determinism (independence of the set enumeration order) -/

/-- C9: `extract_skills` is a pure function of the text and the NER
behaviour; in particular its output does not depend on the enumeration order
of the internal found set — any permutation of the accumulated set yields the
same final sorted display list. -/
theorem c9_determinism (ner : String → List Ent) (text : String) (l : List String)
    (h : List.Perm l (foundSkills ner text)) :
    sortStr (l.map _normalize_skill_casing) = extract_skills ner text := by
  rw [extract_skills_eq]
  exact sortStr_eq_of_perm (h.map _)

set_option maxRecDepth 1000000 in
/-- C9 witness: at a concrete text, with the found set enumerated as
computed. -/
theorem c9_witness :
    sortStr (["git"].map _normalize_skill_casing) = extract_skills (fun _ => []) "git" := by
  apply c9_determinism
  have he : foundSkills (fun _ => []) "git" = ["git"] := by decide
  rw [he]

/-! ### C6: empty input and totality -/

set_option maxRecDepth 1000000 in
/-- C6: on the empty string (whose NER entities are necessarily empty spans),
`extract_skills` returns the empty list; and extraction is a total function —
it returns a value on every input. -/
theorem c6_empty_input (ner : String → List Ent) (h : ∀ e ∈ ner "", e.text = "") :
    extract_skills ner "" = [] ∧ ∀ t : String, ∃ out, extract_skills ner t = out := by
  refine ⟨?_, fun t => ⟨_, rfl⟩⟩
  have h0 : lowerStr "" = "" := rfl
  have hfound : foundSkills ner "" = [] := by
    show phase3 (lowerStr "").data (phase2 (ner (lowerStr "")) (phase1 (lowerStr "").data [])) = []
    rw [h0]
    have hp1 : phase1 ("" : String).data [] = [] := by decide
    rw [hp1, phase2_empty_texts (ner "") h []]
    decide
  rw [extract_skills_eq, hfound]
  rfl

set_option maxRecDepth 100000 in
/-- C6 witness: the empty-NER backend at the empty string. -/
theorem c6_witness : extract_skills (fun _ => []) "" = [] :=
  (c6_empty_input (fun _ => []) (by simp)).1

/-! ### Word characters and lowercasing -/

theorem isWordChar_iff (c : Char) :
    isWordChar c = true ↔ (65 ≤ c.toNat ∧ c.toNat ≤ 90) ∨ (97 ≤ c.toNat ∧ c.toNat ≤ 122) ∨
      (48 ≤ c.toNat ∧ c.toNat ≤ 57) ∨ c.toNat = 95 := by
  simp only [isWordChar, Bool.or_eq_true, Bool.and_eq_true, decide_eq_true_eq, beq_iff_eq]
  omega

theorem isWordChar_toLower (c : Char) : isWordChar (Char.toLower c) = isWordChar c := by
  by_cases h : 65 ≤ c.toNat ∧ c.toNat ≤ 90
  · have h1 : Char.toLower c = Char.ofNat (c.toNat + 32) := by rw [toLower_def, if_pos h]
    have h2 : (Char.ofNat (c.toNat + 32)).toNat = c.toNat + 32 := toNat_ofNat_valid (by omega)
    rw [h1]
    apply Bool.coe_iff_coe.mp
    rw [isWordChar_iff, isWordChar_iff, h2]
    omega
  · rw [toLower_eq_self h]

/-! ### Whole-word occurrences: lowering and bridging to the regex model -/

theorem litHere_lower : ∀ (lit text : List Char), lowerL lit = lit → litHere lit text = true →
    litHere lit (lowerL text) = true
  | [], _, _, _ => rfl
  | _ :: _, [], _, h => by simp [litHere] at h
  | a :: as, b :: bs, hlow, h => by
    have hd : Char.toLower a = a ∧ lowerL as = as := by
      have hcons : Char.toLower a :: lowerL as = a :: as := hlow
      injection hcons with h1 h2
      exact ⟨h1, h2⟩
    have hmap : lowerL (b :: bs) = Char.toLower b :: lowerL bs := rfl
    rw [hmap]
    simp only [litHere, Bool.and_eq_true, beq_iff_eq] at h ⊢
    obtain ⟨heq, htail⟩ := h
    subst heq
    exact ⟨hd.1.symm, litHere_lower as bs hd.2 htail⟩

theorem wholeWordEdge_lower (o : Option Char) :
    wholeWordEdge (o.map Char.toLower) = wholeWordEdge o := by
  cases o with
  | none => rfl
  | some c =>
    have h := isWordChar_toLower c
    simp [wholeWordEdge, h]

theorem wholeWordAt_lower {lit text : List Char} {prev : Option Char}
    (hlow : lowerL lit = lit) (h : wholeWordAt lit text prev = true) :
    wholeWordAt lit (lowerL text) (prev.map Char.toLower) = true := by
  simp only [wholeWordAt, Bool.and_eq_true] at h ⊢
  obtain ⟨⟨h1, h2⟩, h3⟩ := h
  refine ⟨⟨litHere_lower lit text hlow h1, ?_⟩, ?_⟩
  · rw [wholeWordEdge_lower]
    exact h2
  · show wholeWordEdge ((lowerL text).drop lit.length).head? = true
    unfold lowerL
    rw [← List.map_drop, List.head?_map, wholeWordEdge_lower]
    exact h3

theorem wholeWordSearch_lower {lit : List Char} (hlow : lowerL lit = lit) :
    ∀ (prev : Option Char) (text : List Char), wholeWordSearch lit prev text = true →
      wholeWordSearch lit (prev.map Char.toLower) (lowerL text) = true
  | prev, [], h => by
    show wholeWordAt lit [] (prev.map Char.toLower) = true
    exact wholeWordAt_lower hlow h
  | prev, c :: rest, h => by
    have hmap : lowerL (c :: rest) = Char.toLower c :: lowerL rest := rfl
    rw [hmap]
    have h2 : wholeWordAt lit (c :: rest) prev = true ∨
        wholeWordSearch lit (some c) rest = true := by
      simpa [wholeWordSearch, Bool.or_eq_true] using h
    show (wholeWordAt lit (Char.toLower c :: lowerL rest) (prev.map Char.toLower) ||
      wholeWordSearch lit (some (Char.toLower c)) (lowerL rest)) = true
    rcases h2 with h2 | h2
    · have := wholeWordAt_lower hlow h2
      rw [hmap] at this
      rw [this]
      rfl
    · have := wholeWordSearch_lower hlow (some c) rest h2
      have hthis : wholeWordSearch lit (some (Char.toLower c)) (lowerL rest) = true := this
      rw [hthis, Bool.or_true]

theorem litMatchAt_of_wholeWordAt {lit text : List Char} {prev : Option Char}
    (hh : (lit.head?.map isWordChar).getD false = true)
    (hl : (lit.getLast?.map isWordChar).getD false = true)
    (hw : wholeWordAt lit text prev = true) :
    litMatchAt lit text prev = true := by
  simp only [wholeWordAt, Bool.and_eq_true] at hw
  obtain ⟨⟨hlit, hprev⟩, hnext⟩ := hw
  have hprev2 : ((prev.map isWordChar).getD false) = false := by
    revert hprev
    unfold wholeWordEdge
    cases (prev.map isWordChar).getD false <;> simp
  have hnext2 : (((text.drop lit.length).head?.map isWordChar).getD false) = false := by
    revert hnext
    unfold wholeWordEdge
    cases ((text.drop lit.length).head?.map isWordChar).getD false <;> simp
  simp only [litMatchAt, Bool.and_eq_true]
  refine ⟨⟨hlit, ?_⟩, ?_⟩
  · unfold boundary
    rw [hprev2, hh]
    rfl
  · unfold boundary
    rw [hnext2, hl]
    rfl

theorem wordBounded_of_wholeWordSearch {lit : List Char}
    (hh : (lit.head?.map isWordChar).getD false = true)
    (hl : (lit.getLast?.map isWordChar).getD false = true) :
    ∀ (prev : Option Char) (text : List Char), wholeWordSearch lit prev text = true →
      wordBounded lit prev text = true
  | prev, [], h => by
    show litMatchAt lit [] prev = true
    exact litMatchAt_of_wholeWordAt hh hl h
  | prev, c :: rest, h => by
    have h2 : wholeWordAt lit (c :: rest) prev = true ∨
        wholeWordSearch lit (some c) rest = true := by
      simpa [wholeWordSearch, Bool.or_eq_true] using h
    show (litMatchAt lit (c :: rest) prev || wordBounded lit (some c) rest) = true
    rcases h2 with h2 | h2
    · rw [litMatchAt_of_wholeWordAt hh hl h2]
      rfl
    · rw [wordBounded_of_wholeWordSearch hh hl (some c) rest h2, Bool.or_true]

/-! ### Finite facts about the alias data -/

set_option maxRecDepth 1000000 in
theorem alias_lowercase : ∀ p ∈ CANONICAL_SKILLS_MAP, ∀ al ∈ p.2, lowerStr al = al := by
  decide

set_option maxRecDepth 1000000 in
theorem alias_head_word :
    ∀ p ∈ CANONICAL_SKILLS_MAP, ∀ al ∈ p.2,
      (al.data.head?.map isWordChar).getD false = true := by
  decide

/-! ### Membership in the final output -/

theorem extract_skills_mem_of_found {ner : String → List Ent} {text x : String}
    (hx : x ∈ foundSkills ner text) :
    _normalize_skill_casing x ∈ extract_skills ner text := by
  rw [extract_skills_eq, (sortStr_perm _).mem_iff]
  exact List.mem_map_of_mem _ hx

/-! ### C4: alias convergence -/

set_option maxRecDepth 1000000 in
/-- C4 counterexample: the alias `"c++"` of the canonical skill `"C++"`
occurs as a whole word in the text `"c++"`, yet `extract_skills` returns the
empty list — the `\b`-bounded regex of the source cannot match an alias that
ends in a non-word character, so the claim fails as stated. -/
theorem c4_counterexample_cpp :
    ("C++", ["c++"]) ∈ CANONICAL_SKILLS_MAP ∧
    containsAsWholeWord "c++" "c++" = true ∧
    extract_skills (fun _ => []) "c++" = [] ∧
    "C++" ∉ extract_skills (fun _ => []) "c++" := by
  have he : extract_skills (fun _ => []) "c++" = [] := by decide
  exact ⟨by decide, by decide, he, by rw [he]; exact List.not_mem_nil _⟩

/-- C4 (amended): for every canonical skill and every alias listed for it
*whose final character is a word character* (every alias except `"c++"` and
`"c#"`), running `extract_skills` on any text containing that alias as a
whole word yields the canonical entry in the result, whatever the NER
backend returns. -/
theorem c4_amended_alias_whole_word (p : String × List String) (al : String)
    (ner : String → List Ent) (text : String)
    (hp : p ∈ CANONICAL_SKILLS_MAP) (ha : al ∈ p.2)
    (hlast : (al.data.getLast?.map isWordChar).getD false = true)
    (hww : containsAsWholeWord al text = true) :
    p.1 ∈ extract_skills ner text := by
  have hlow : lowerL al.data = al.data :=
    congrArg String.data (alias_lowercase p hp al ha)
  have hhead := alias_head_word p hp al ha
  have h1 : wholeWordSearch al.data none (lowerL text.data) = true :=
    wholeWordSearch_lower hlow none text.data hww
  have h2 : wordBoundedContains al.data (lowerStr text).data = true := by
    show wordBounded al.data none (lowerStr text).data = true
    exact wordBounded_of_wholeWordSearch hhead hlast none (lowerL text.data) h1
  have h3 : lowerStr p.1 ∈ foundSkills ner text := by
    show lowerStr p.1 ∈ phase3 (lowerStr text).data
      (phase2 (ner (lowerStr text)) (phase1 (lowerStr text).data []))
    exact phase3_superset _ _ _ (phase2_superset _ _ _ (phase1_mem_intro hp ha h2 []))
  have h4 := extract_skills_mem_of_found h3
  rwa [normalize_lower_key hp] at h4

set_option maxRecDepth 1000000 in
/-- C4 witness: the alias `"react"` in a concrete text yields `"React"`. -/
theorem c4_witness :
    ("React", ["react", "reactjs"]) ∈ CANONICAL_SKILLS_MAP ∧
    containsAsWholeWord "react" "react developer" = true ∧
    "React" ∈ extract_skills (fun _ => []) "react developer" :=
  ⟨by decide, by decide,
    c4_amended_alias_whole_word ("React", ["react", "reactjs"]) "react" (fun _ => [])
      "react developer" (by decide) (by decide) (by decide) (by decide)⟩
